import Mathlib

/-!
Verification of the segment-timing synchronization and media-assembly
reconciliation engine of the content-creation pipeline.

The Python sources are shallowly embedded:
* floats are modelled as rationals (`ℚ`);
* Python list indices are modelled as integers (`ℤ`), with Python's
  negative-index semantics made explicit (`pyIndex`);
* fallible code returns `Option`;
* external media primitives (ffmpeg, pydub) are modelled by explicit
  functions on durations / sample lists following the collaborator
  contracts of the specification.
-/

/-! ## Python string splitting

`text.strip().split()` splits on runs of whitespace and drops empty
tokens; stripping first does not change the token list.
(`audio_generator.py`, line 139-140) -/

/-- Tokenizer loop: `cur` accumulates the current token's characters
in reverse; whitespace finishes the current token (if any), everything
else extends it. -/
def pySplitAux : List Char → List Char → List String
  | [], cur => if cur.isEmpty then [] else [String.mk cur.reverse]
  | c :: cs, cur =>
    if c.isWhitespace then
      if cur.isEmpty then pySplitAux cs []
      else String.mk cur.reverse :: pySplitAux cs []
    else pySplitAux cs (c :: cur)

/-- Python `text.split()` (no separator): split on runs of whitespace,
producing no empty tokens. -/
def pySplit (s : String) : List String := pySplitAux s.data []

/-- Python list indexing `xs[i]` for `i : ℤ`: non-negative indices are
direct, negative indices count from the end, anything else raises
(`none`). -/
def pyIndex {α : Type} (xs : List α) (i : ℤ) : Option α :=
  if 0 ≤ i ∧ i < (xs.length : ℤ) then xs[i.toNat]?
  else if -(xs.length : ℤ) ≤ i ∧ i < 0 then xs[(i + xs.length).toNat]?
  else none

/-- Python `round(x, 3)`: round to 3 decimal places.  (Python rounds
half-to-even on floats; on the 3-decimal timestamps the code feeds in,
the two conventions agree, and we use round-half-up.) -/
def pyRound3 (x : ℚ) : ℚ := (round (x * 1000) : ℤ) / 1000

/-- `x` is an exact 3-decimal value (as produced by the transcription
collection step, which stores `round(word.start, 3)`). -/
def milli (x : ℚ) : Prop := (x * 1000).den = 1

/-! ## Data model (audio_generator.py) -/

/-- A word with start/end times, as collected from the transcription
service (`audio_generator.py`, lines 180-188).  The Python dict key
`end` is a Lean keyword; it is named `stop` here. -/
structure WordTimestamp where
  word : String
  start : ℚ
  stop : ℚ
deriving DecidableEq, Repr

/-- One authored script segment (only the fields the synchronizer
reads). -/
structure Segment where
  segment_id : ℤ
  audio_text : String
deriving DecidableEq, Repr

/-- A segment's expected word-index span
(`audio_generator.py`, lines 141-146). -/
structure Boundary where
  segment_id : ℤ
  start_word_idx : ℤ
  end_word_idx : ℤ
deriving DecidableEq, Repr

/-- Derived per-segment timing (`audio_generator.py`, lines 209-216). -/
structure SegmentTiming where
  segment_id : ℤ
  start_time : ℚ
  end_time : ℚ
  duration : ℚ
  word_start_idx : ℤ
  word_end_idx : ℤ
deriving DecidableEq, Repr

/-- The timestamps artifact written by `generate_full_audio`
(`audio_generator.py`, lines 225-230; the audio path and total duration
fields play no role in the claims). -/
structure TimestampsData where
  words : List WordTimestamp
  segments : List SegmentTiming
deriving DecidableEq, Repr

/-- Step 1 of `generate_full_audio` (lines 133-148): accumulate a
running word offset across segments; segment `i`'s range starts right
after segment `i-1`'s.  `end_word_idx = cumulative + words - 1` is an
integer and equals `-1` when a leading segment has no words. -/
def boundariesAux (cum : ℕ) : List Segment → List Boundary
  | [] => []
  | seg :: rest =>
    let w := (pySplit seg.audio_text).length
    { segment_id := seg.segment_id
      start_word_idx := (cum : ℤ)
      end_word_idx := (cum : ℤ) + (w : ℤ) - 1 } :: boundariesAux (cum + w) rest

def computeBoundaries (segs : List Segment) : List Boundary :=
  boundariesAux 0 segs

/-- Step 4 of `generate_full_audio` (lines 196-216): clamp both indices
from above with `min(idx, len(word_timestamps) - 1)` (the code has no
lower clamp), then look the words up with Python indexing and build the
timing entry, rounding the duration to 3 decimals. -/
def mapBoundary (words : List WordTimestamp) (b : Boundary) : Option SegmentTiming :=
  let s := min b.start_word_idx ((words.length : ℤ) - 1)
  let e := min b.end_word_idx ((words.length : ℤ) - 1)
  match pyIndex words s, pyIndex words e with
  | some ws, some we =>
    some { segment_id := b.segment_id
           start_time := ws.start
           end_time := we.stop
           duration := pyRound3 (we.stop - ws.start)
           word_start_idx := s
           word_end_idx := e }
  | _, _ => none

/-- The `for boundary in segment_word_boundaries` loop of Step 4
(lines 197-216): build one timing entry per boundary; an uncaught
indexing error anywhere aborts the whole loop (`none`). -/
def mapSegments (words : List WordTimestamp) : List Boundary → Option (List SegmentTiming)
  | [] => some []
  | b :: bs =>
    match mapBoundary words b, mapSegments words bs with
    | some t, some ts => some (t :: ts)
    | _, _ => none

/-- `generate_full_audio` (`audio_generator.py`, lines 114-244),
restricted to the synchronization logic: the TTS and transcription
collaborators are abstracted into the transcribed word list `words`.
Empty `script_segments` fail (line 129-131); zero transcribed words
fail before anything is written (lines 192-194); otherwise one timing
entry per segment is produced and the artifact is written. -/
def generate_full_audio (segs : List Segment) (words : List WordTimestamp) :
    Option TimestampsData :=
  if segs.isEmpty then none
  else if words.isEmpty then none
  else (mapSegments words (computeBoundaries segs)).map
    fun ts => { words := words, segments := ts }

/-! ## Pipeline runner (generate_video.py) -/

/-- The control flow of `generate_video` (`generate_video.py`, lines
207-384) at the granularity the claims need.  The audio stage succeeds
iff `generate_full_audio` produced its artifact; the assembly stage and
the final-artifact check are abstracted to the booleans the external
stages report; the Step-6 duration validation (lines 343-362) only logs
a warning when `|actual - target| > 1.0` and never fails the run.
Returns `(success, tolerance_warning)`. -/
def generate_video (segs : List Segment) (words : List WordTimestamp)
    (assembleOk : Bool) (finalExists : Bool) (actual target : ℚ) : Bool × Bool :=
  match generate_full_audio segs words with
  | none => (false, false)
  | some _ =>
    if assembleOk = false then (false, false)
    else if finalExists = false then (false, false)
    else (true, decide (1 < |actual - target|))

/-- `main` exit status (`generate_video.py`, line 428):
`sys.exit(0 if success else 1)`. -/
def mainExit (success : Bool) : ℕ := if success then 0 else 1

/-! ## Cut planner and clip expansion (broll_fetcher.py) -/

/-- An authored b-roll clip spec (the fields `fetch_for_segment` and
`_expand_search_queries` read). -/
structure Clip where
  type : String
  search_query : String
deriving DecidableEq, Repr

/-- The deterministic suffix rotation of `_expand_search_queries`
(`broll_fetcher.py`, lines 340-341). -/
def suffixes : List String :=
  ["cinematic", "aerial", "close up", "dramatic", "slow motion",
   "abstract", "nature", "urban", "texture", "background"]

/-- The loop body of `_expand_search_queries` (`broll_fetcher.py`,
lines 344-347): cycle through the authored list with `idx`, and append
the suffix selected by `(len(expanded) - len(broll_clips)) % len(suffixes)`
to the base clip's query. -/
def expandVariation (broll_clips : List Clip) (expandedLen idx : ℕ) : Clip :=
  let base := broll_clips.getD (idx % broll_clips.length) ⟨"", ""⟩
  { base with
    search_query := base.search_query ++ " " ++
      suffixes.getD ((expandedLen - broll_clips.length) % suffixes.length) "" }

/-- The `while len(expanded) < num_needed` loop of
`_expand_search_queries` (`broll_fetcher.py`, lines 342-349), written
with explicit fuel.  Each iteration appends one variation, so the loop
runs `num_needed - len(expanded)` times; any fuel at least that large
(the callers pass `num_needed`) computes the same list. -/
def expandAux (broll_clips : List Clip) (num_needed : ℕ) :
    ℕ → List Clip → ℕ → List Clip
  | 0, expanded, _ => expanded
  | fuel + 1, expanded, idx =>
    if expanded.length < num_needed then
      expandAux broll_clips num_needed fuel
        (expanded ++ [expandVariation broll_clips expanded.length idx])
        (idx + 1)
    else expanded

/-- `_expand_search_queries` (`broll_fetcher.py`, lines 337-350):
start from a copy of the authored list, append deterministic query
variations until `num_needed` entries exist, then slice to
`num_needed`. -/
def expandSearchQueries (broll_clips : List Clip) (num_needed : ℕ) : List Clip :=
  (expandAux broll_clips num_needed num_needed broll_clips 0).take num_needed

/-- `num_clips_needed = max(1, math.ceil(segment_duration / cut_frequency))`
(`broll_fetcher.py`, line 417). -/
def num_clips_needed (segment_duration cut_frequency : ℚ) : ℤ :=
  max 1 ⌈segment_duration / cut_frequency⌉

/-- The planning portion of `fetch_for_segment` (`broll_fetcher.py`,
lines 404-435): reject a missing clip list (lines 411-414); a zero cut
frequency raises `ZeroDivisionError` at line 417, which the enclosing
`try` catches, returning failure; otherwise compute the clip count and
equal-subdivision display duration (lines 417-418), expand the clip
list when more clips are needed than are authored (lines 426-430), and
process `broll_clips[:num_clips_needed]` in order (line 435).  The
result is the processed clip list and the per-clip display duration;
the per-clip network fetches are external collaborators. -/
def fetchPlan (broll_clips : List Clip) (segment_duration cut_frequency : ℚ) :
    Option (List Clip × ℚ) :=
  if broll_clips.isEmpty then none
  else if cut_frequency = 0 then none
  else
    let n := (num_clips_needed segment_duration cut_frequency).toNat
    let dur := segment_duration / (n : ℚ)
    let clips :=
      if broll_clips.length < n then expandSearchQueries broll_clips n else broll_clips
    some (clips.take n, dur)

/-! ## Assembly reconciler Stage B (video_assembler.py, combine_audio_video) -/

/-- Which branch of `combine_audio_video` ran. -/
inductive ReconcileAction where
  | loopAndCut
  | trim
  | unmodified
deriving DecidableEq, Repr

/-- ffmpeg `-stream_loop -1 … -t t`: loop the input from its start
indefinitely and hard-cut the output at `t`
(`video_assembler.py`, lines 147-162). -/
def streamLoopCutDuration (t : ℚ) : ℚ := t

/-- ffmpeg `trim(duration=t)` followed by `setpts(PTS-STARTPTS)`: keep
at most `t` seconds and reset the time base
(`video_assembler.py`, line 175). -/
def ffmpegTrimDuration (video_duration t : ℚ) : ℚ := min video_duration t

/-- `combine_audio_video` (`video_assembler.py`, lines 128-197),
expressed on the probed durations: if the video is more than 0.1 s
shorter than the audio, loop it and cut at the audio duration; if more
than 0.1 s longer, trim it to the audio duration; otherwise use it
unmodified.  Returns the branch taken and the resulting video
duration. -/
def combine_audio_video (video_duration audio_duration : ℚ) : ReconcileAction × ℚ :=
  if video_duration < audio_duration - 1/10 then
    (ReconcileAction.loopAndCut, streamLoopCutDuration audio_duration)
  else if video_duration - audio_duration > 1/10 then
    (ReconcileAction.trim, ffmpegTrimDuration video_duration audio_duration)
  else
    (ReconcileAction.unmodified, video_duration)

/-! ## Music mixing (video_assembler.py, mix_background_music)

pydub `AudioSegment`s are modelled as lists of amplitude samples, one
per millisecond unit (pydub lengths and slices are in milliseconds);
the dB gain offset is modelled as the corresponding linear factor, and
the pydub fade curves as abstract per-position envelope factors. -/

/-- `music + music_volume_db`: apply a fixed gain to every sample. -/
def gainAdjust (g : ℚ) (seg : List ℚ) : List ℚ := seg.map (fun x => g * x)

/-- pydub `seg * n`: repeat the segment `n` times. -/
def pydubRepeat (seg : List ℚ) (n : ℕ) : List ℚ := (List.replicate n seg).flatten

/-- pydub `seg.fade_in(fade_ms)`: scale the first `fade_ms` samples by
the envelope, leave the rest untouched. -/
def fadeIn (fade_ms : ℕ) (env : ℕ → ℚ) (seg : List ℚ) : List ℚ :=
  (List.range seg.length).map fun i =>
    if i < fade_ms then env i * seg.getD i 0 else seg.getD i 0

/-- pydub `seg.fade_out(fade_ms)`: scale the last `fade_ms` samples by
the envelope (indexed from the end), leave the rest untouched. -/
def fadeOut (fade_ms : ℕ) (env : ℕ → ℚ) (seg : List ℚ) : List ℚ :=
  (List.range seg.length).map fun i =>
    if seg.length ≤ i + fade_ms then env (seg.length - 1 - i) * seg.getD i 0
    else seg.getD i 0

/-- pydub `a.overlay(b)`: add `b` onto `a` sample-wise; the result has
exactly `a`'s length (excess of `b` is dropped, missing samples of `b`
contribute silence). -/
def overlay (a b : List ℚ) : List ℚ :=
  (List.range a.length).map fun i => a.getD i 0 + b.getD i 0

/-- `loops_needed = (vo_duration // music_duration) + 1`
(`video_assembler.py`, line 218). -/
def loops_needed (vo_d m_d : ℕ) : ℕ := vo_d / m_d + 1

/-- `mix_background_music` (`video_assembler.py`, lines 199-240) on
sample lists: apply the gain; if the music is shorter than the
voiceover, repeat it `loops_needed` times (a zero-length music file
would raise `ZeroDivisionError` at line 218, hence `none`); truncate to
the voiceover length; apply fade-in then fade-out once (line 226-227,
only when `fade_ms > 0`); overlay onto the voiceover. -/
def mix_background_music (gain : ℚ) (fade_ms : ℕ) (envIn envOut : ℕ → ℚ)
    (voiceover music : List ℚ) : Option (List ℚ) :=
  let music1 := gainAdjust gain music
  let vo_d := voiceover.length
  let m_d := music1.length
  if m_d < vo_d ∧ m_d = 0 then none
  else
    let music2 :=
      if m_d < vo_d then pydubRepeat music1 (loops_needed vo_d m_d) else music1
    let music3 := music2.take vo_d
    let music4 :=
      if 0 < fade_ms then fadeOut fade_ms envOut (fadeIn fade_ms envIn music3)
      else music3
    some (overlay voiceover music4)

/-! ## Helper lemmas: synchronizer -/

lemma length_boundariesAux (cum : ℕ) (segs : List Segment) :
    (boundariesAux cum segs).length = segs.length := by
  induction segs generalizing cum with
  | nil => rfl
  | cons s rest ih => simp [boundariesAux, ih]

lemma boundariesAux_ge (cum : ℕ) (segs : List Segment) :
    ∀ b ∈ boundariesAux cum segs,
      (cum : ℤ) ≤ b.start_word_idx ∧ b.start_word_idx - 1 ≤ b.end_word_idx := by
  induction segs generalizing cum with
  | nil => simp [boundariesAux]
  | cons s rest ih =>
    intro b hb
    rcases List.mem_cons.mp hb with rfl | hb
    · constructor
      · simp
      · simp only
        omega
    · have h := ih _ b hb
      constructor
      · have : (cum : ℤ) ≤ ((cum + (pySplit s.audio_text).length : ℕ) : ℤ) := by
          push_cast; omega
        omega
      · exact h.2

lemma boundariesAux_start_le_end (cum : ℕ) (segs : List Segment)
    (hwords : ∀ s ∈ segs, pySplit s.audio_text ≠ []) :
    ∀ b ∈ boundariesAux cum segs, b.start_word_idx ≤ b.end_word_idx := by
  induction segs generalizing cum with
  | nil => simp [boundariesAux]
  | cons s rest ih =>
    intro b hb
    rcases List.mem_cons.mp hb with rfl | hb
    · have h1 : 1 ≤ (pySplit s.audio_text).length :=
        List.length_pos.mpr (hwords s (List.mem_cons_self s rest))
      simp only
      omega
    · exact ih _ (fun x hx => hwords x (List.mem_cons_of_mem s hx)) b hb

lemma pyIndex_of_nonneg {α : Type} (xs : List α) (i : ℤ) (h0 : 0 ≤ i)
    (h : i.toNat < xs.length) : pyIndex xs i = some (xs.get ⟨i.toNat, h⟩) := by
  rw [pyIndex, if_pos ⟨h0, by omega⟩]
  simp [List.getElem?_eq_getElem h]

lemma pyIndex_isSome_neg {α : Type} (xs : List α) (i : ℤ)
    (hl : -(xs.length : ℤ) ≤ i) (h0 : i < 0) : ∃ a, pyIndex xs i = some a := by
  rw [pyIndex, if_neg (by omega), if_pos ⟨hl, h0⟩]
  have h : (i + xs.length).toNat < xs.length := by omega
  exact ⟨_, List.getElem?_eq_getElem h⟩

lemma mapBoundary_eq_of (words : List WordTimestamp) (b : Boundary)
    (ws we : WordTimestamp)
    (h1 : pyIndex words (min b.start_word_idx ((words.length : ℤ) - 1)) = some ws)
    (h2 : pyIndex words (min b.end_word_idx ((words.length : ℤ) - 1)) = some we) :
    mapBoundary words b = some
      { segment_id := b.segment_id
        start_time := ws.start
        end_time := we.stop
        duration := pyRound3 (we.stop - ws.start)
        word_start_idx := min b.start_word_idx ((words.length : ℤ) - 1)
        word_end_idx := min b.end_word_idx ((words.length : ℤ) - 1) } := by
  simp only [mapBoundary, h1, h2]

lemma mapBoundary_spec (words : List WordTimestamp) (b : Boundary)
    (hw : words ≠ []) (hb0 : 0 ≤ b.start_word_idx) (hbe : -1 ≤ b.end_word_idx) :
    ∃ t, mapBoundary words b = some t ∧
      t.segment_id = b.segment_id ∧
      t.word_start_idx = min b.start_word_idx ((words.length : ℤ) - 1) ∧
      t.word_end_idx = min b.end_word_idx ((words.length : ℤ) - 1) := by
  have hL : 0 < words.length := List.length_pos.mpr hw
  have hs0 : 0 ≤ min b.start_word_idx ((words.length : ℤ) - 1) := le_min hb0 (by omega)
  have hsn : (min b.start_word_idx ((words.length : ℤ) - 1)).toNat < words.length := by
    have := min_le_right b.start_word_idx ((words.length : ℤ) - 1)
    omega
  obtain ⟨we, hwe⟩ : ∃ we,
      pyIndex words (min b.end_word_idx ((words.length : ℤ) - 1)) = some we := by
    by_cases h0 : 0 ≤ min b.end_word_idx ((words.length : ℤ) - 1)
    · have hen : (min b.end_word_idx ((words.length : ℤ) - 1)).toNat < words.length := by
        have := min_le_right b.end_word_idx ((words.length : ℤ) - 1)
        omega
      exact ⟨_, pyIndex_of_nonneg words _ h0 hen⟩
    · refine pyIndex_isSome_neg words _ ?_ (by omega)
      have := le_min hbe (show (-1 : ℤ) ≤ (words.length : ℤ) - 1 by omega)
      omega
  exact ⟨_, mapBoundary_eq_of words b _ we (pyIndex_of_nonneg words _ hs0 hsn) hwe,
    rfl, rfl, rfl⟩

lemma mapSegments_spec (words : List WordTimestamp) :
    ∀ bs : List Boundary, (∀ b ∈ bs, (mapBoundary words b).isSome) →
      ∃ ts, mapSegments words bs = some ts ∧
        List.Forall₂ (fun b t => mapBoundary words b = some t) bs ts := by
  intro bs
  induction bs with
  | nil => exact fun _ => ⟨[], rfl, List.Forall₂.nil⟩
  | cons b bs ih =>
    intro h
    obtain ⟨t, ht⟩ := Option.isSome_iff_exists.mp (h b (List.mem_cons_self b bs))
    obtain ⟨ts, hts, hfa⟩ := ih (fun x hx => h x (List.mem_cons_of_mem b hx))
    exact ⟨t :: ts, by simp [mapSegments, ht, hts], List.Forall₂.cons ht hfa⟩

lemma forall₂_mem_right {α β : Type} {R : α → β → Prop} {l₁ : List α} {l₂ : List β}
    (h : List.Forall₂ R l₁ l₂) : ∀ b ∈ l₂, ∃ a ∈ l₁, R a b := by
  induction h with
  | nil => intro b hb; simp at hb
  | cons hr _ ih =>
    intro x hx
    rcases List.mem_cons.mp hx with rfl | hx
    · exact ⟨_, List.mem_cons_self _ _, hr⟩
    · obtain ⟨a', ha', hr'⟩ := ih x hx
      exact ⟨a', List.mem_cons_of_mem _ ha', hr'⟩

lemma generate_full_audio_spec (segs : List Segment) (words : List WordTimestamp)
    (hs : segs ≠ []) (hw : words ≠ []) :
    ∃ data, generate_full_audio segs words = some data ∧
      data.words = words ∧
      data.segments.length = segs.length ∧
      List.Forall₂ (fun b t => mapBoundary words b = some t)
        (computeBoundaries segs) data.segments := by
  have hsome : ∀ b ∈ computeBoundaries segs, (mapBoundary words b).isSome := by
    intro b hb
    have hge := boundariesAux_ge 0 segs b hb
    obtain ⟨t, ht, -⟩ := mapBoundary_spec words b hw (by omega) (by omega)
    simp [ht]
  obtain ⟨ts, hts, hfa⟩ := mapSegments_spec words _ hsome
  refine ⟨⟨words, ts⟩, ?_, rfl, ?_, hfa⟩
  · simp [generate_full_audio, hs, hw, hts]
  · have := hfa.length_eq
    simp only [computeBoundaries, length_boundariesAux] at this
    exact this.symm

lemma pyRound3_nonneg (x : ℚ) (h : 0 ≤ x) : 0 ≤ pyRound3 x := by
  unfold pyRound3
  have h1 : (0 : ℤ) ≤ round (x * 1000) := by
    rw [round_eq]
    exact Int.floor_nonneg.mpr (by linarith)
  exact div_nonneg (by exact_mod_cast h1) (by norm_num)

lemma pyRound3_of_milli (a b : ℚ) (ha : milli a) (hb : milli b) :
    pyRound3 (a - b) = a - b := by
  unfold milli at ha hb
  have ha' : (((a * 1000).num : ℤ) : ℚ) = a * 1000 := by
    have h := Rat.num_div_den (a * 1000)
    rw [ha] at h
    simpa using h
  have hb' : (((b * 1000).num : ℤ) : ℚ) = b * 1000 := by
    have h := Rat.num_div_den (b * 1000)
    rw [hb] at h
    simpa using h
  have hab : (a - b) * 1000 = (((a * 1000).num - (b * 1000).num : ℤ) : ℚ) := by
    push_cast
    rw [ha', hb']
    ring
  unfold pyRound3
  rw [hab, round_intCast]
  push_cast
  rw [ha', hb']
  ring

lemma mapBoundary_nonneg (words : List WordTimestamp) (b : Boundary)
    (hw : words ≠ []) (hb0 : 0 ≤ b.start_word_idx)
    (hbse : b.start_word_idx ≤ b.end_word_idx)
    (hss : ∀ w ∈ words, w.start ≤ w.stop)
    (hmono : words.Pairwise fun a c => a.start ≤ c.start) :
    ∀ t, mapBoundary words b = some t →
      (∃ ws ∈ words, t.start_time = ws.start) ∧
      (∃ we ∈ words, t.end_time = we.stop) ∧
      t.start_time ≤ t.end_time ∧
      t.duration = pyRound3 (t.end_time - t.start_time) := by
  intro t ht
  have hL : 0 < words.length := List.length_pos.mpr hw
  have hs0 : 0 ≤ min b.start_word_idx ((words.length : ℤ) - 1) := le_min hb0 (by omega)
  have he0 : 0 ≤ min b.end_word_idx ((words.length : ℤ) - 1) :=
    le_min (le_trans hb0 hbse) (by omega)
  have hsn : (min b.start_word_idx ((words.length : ℤ) - 1)).toNat < words.length := by
    have := min_le_right b.start_word_idx ((words.length : ℤ) - 1)
    omega
  have hen : (min b.end_word_idx ((words.length : ℤ) - 1)).toNat < words.length := by
    have := min_le_right b.end_word_idx ((words.length : ℤ) - 1)
    omega
  rw [mapBoundary_eq_of words b _ _ (pyIndex_of_nonneg words _ hs0 hsn)
    (pyIndex_of_nonneg words _ he0 hen)] at ht
  obtain rfl := (Option.some.inj ht).symm
  have hmem₁ := List.get_mem words _ hsn
  have hmem₂ := List.get_mem words _ hen
  refine ⟨⟨_, hmem₁, rfl⟩, ⟨_, hmem₂, rfl⟩, ?_, rfl⟩
  have hsnen : (min b.start_word_idx ((words.length : ℤ) - 1)).toNat ≤
      (min b.end_word_idx ((words.length : ℤ) - 1)).toNat :=
    Int.toNat_le_toNat (min_le_min hbse le_rfl)
  rcases Nat.lt_or_ge (min b.start_word_idx ((words.length : ℤ) - 1)).toNat
      (min b.end_word_idx ((words.length : ℤ) - 1)).toNat with hlt | hge
  · have hmono' := List.pairwise_iff_getElem.mp hmono _ _ hsn hen hlt
    have hstop := hss _ hmem₂
    simp only [List.get_eq_getElem] at hstop ⊢
    exact le_trans hmono' hstop
  · have heq : (min b.start_word_idx ((words.length : ℤ) - 1)).toNat =
        (min b.end_word_idx ((words.length : ℤ) - 1)).toNat := le_antisymm hsnen hge
    have hstop := hss _ hmem₂
    simp only [List.get_eq_getElem] at hstop ⊢
    simp only [heq]
    exact hstop

/-! ## Claim C2: timing synchronization clamping -/

/-- C2 counterexample: the claim as stated is false.  A segment whose
`audio_text` contains no words (here a lone space, a non-empty string)
gets `end_word_idx = cumulative + 0 - 1 = -1`, and the code's
`min(idx, len - 1)` clamp has no lower bound, so the stored end index
is `-1`, outside the claimed range `[0, len(word_timestamps) - 1]`
(Python's negative indexing silently reads the last word instead). -/
theorem c2_counterexample :
    (generate_full_audio [⟨1, " "⟩] [⟨"hi", 0, 1⟩]).map
      (fun d => d.segments.map SegmentTiming.word_end_idx) = some [-1] ∧
    ¬ (0 : ℤ) ≤ -1 := by
  exact ⟨by decide, by decide⟩

/-- C2 (amended): for every non-empty segment list and non-empty
transcribed word list, synchronization produces exactly one
SegmentTiming per segment and never raises; the indices are clamped
from above by `min(idx, len(word_timestamps) - 1)` only, and whenever
every segment's text contains at least one word, both stored indices
lie in `[0, len(word_timestamps) - 1]` and every lookup is in bounds. -/
theorem c2_sync_clamping (segs : List Segment) (words : List WordTimestamp)
    (hs : segs ≠ []) (hw : words ≠ []) :
    ∃ data, generate_full_audio segs words = some data ∧
      data.segments.length = segs.length ∧
      ((∀ s ∈ segs, pySplit s.audio_text ≠ []) →
        ∀ t ∈ data.segments,
          0 ≤ t.word_start_idx ∧ t.word_start_idx < (words.length : ℤ) ∧
          0 ≤ t.word_end_idx ∧ t.word_end_idx < (words.length : ℤ)) := by
  obtain ⟨data, hd, -, hlen, hfa⟩ := generate_full_audio_spec segs words hs hw
  refine ⟨data, hd, hlen, ?_⟩
  intro hwords t ht
  obtain ⟨b, hb, hbt⟩ := forall₂_mem_right hfa t ht
  have hge := boundariesAux_ge 0 segs b hb
  have hsle := boundariesAux_start_le_end 0 segs hwords b hb
  have hL : 0 < words.length := List.length_pos.mpr hw
  obtain ⟨t', ht', -, hsidx, heidx⟩ := mapBoundary_spec words b hw (by omega) (by omega)
  rw [hbt] at ht'
  obtain rfl := Option.some.inj ht'
  rw [hsidx, heidx]
  have h1 := min_le_right b.start_word_idx ((words.length : ℤ) - 1)
  have h2 := min_le_right b.end_word_idx ((words.length : ℤ) - 1)
  have h3 : 0 ≤ min b.start_word_idx ((words.length : ℤ) - 1) :=
    le_min (by omega) (by omega)
  have h4 : 0 ≤ min b.end_word_idx ((words.length : ℤ) - 1) :=
    le_min (by omega) (by omega)
  exact ⟨h3, by omega, h4, by omega⟩

/-- C2 witness: one authored segment of two words against a single
transcribed word (word-count drift), instantiating the amended
theorem. -/
theorem c2_witness :
    ∃ data,
      generate_full_audio [⟨1, "hello world"⟩] [⟨"hello", 0, 2/5⟩] = some data ∧
      data.segments.length = ([⟨1, "hello world"⟩] : List Segment).length ∧
      ((∀ s ∈ ([⟨1, "hello world"⟩] : List Segment), pySplit s.audio_text ≠ []) →
        ∀ t ∈ data.segments,
          0 ≤ t.word_start_idx ∧
          t.word_start_idx < (([⟨"hello", 0, 2/5⟩] : List WordTimestamp).length : ℤ) ∧
          0 ≤ t.word_end_idx ∧
          t.word_end_idx < (([⟨"hello", 0, 2/5⟩] : List WordTimestamp).length : ℤ)) :=
  c2_sync_clamping [⟨1, "hello world"⟩] [⟨"hello", 0, 2/5⟩] (by decide) (by decide)

/-! ## Claim C5: zero-word transcription is fatal -/

/-- C5: if transcription produced zero words, `generate_full_audio`
fails without producing the timestamps artifact and the pipeline run
reports failure (exit status 1), whereas any non-empty transcription —
whatever its word count — never makes synchronization fail. -/
theorem c5_zero_transcription_fatal (segs : List Segment) (hs : segs ≠ [])
    (assembleOk finalExists : Bool) (actual target : ℚ) :
    generate_full_audio segs [] = none ∧
    (generate_video segs [] assembleOk finalExists actual target).1 = false ∧
    mainExit (generate_video segs [] assembleOk finalExists actual target).1 = 1 ∧
    ∀ words : List WordTimestamp, words ≠ [] →
      (generate_full_audio segs words).isSome := by
  have h1 : generate_full_audio segs [] = none := by
    simp [generate_full_audio]
  refine ⟨h1, ?_, ?_, ?_⟩
  · simp [generate_video, h1]
  · simp [generate_video, h1, mainExit]
  · intro words hw
    obtain ⟨data, hd, -⟩ := generate_full_audio_spec segs words hs hw
    simp [hd]

/-- C5 witness. -/
theorem c5_witness :
    generate_full_audio [⟨1, "hi"⟩] [] = none ∧
    (generate_video [⟨1, "hi"⟩] [] true true 60 60).1 = false ∧
    mainExit (generate_video [⟨1, "hi"⟩] [] true true 60 60).1 = 1 ∧
    ∀ words : List WordTimestamp, words ≠ [] →
      (generate_full_audio [⟨1, "hi"⟩] words).isSome :=
  c5_zero_transcription_fatal [⟨1, "hi"⟩] (by decide) true true 60 60

/-! ## Claim C6: duration tolerance is a non-fatal absolute check -/

/-- C6: once the assembly stage succeeded and the final artifact
exists, the run succeeds (exit status 0) regardless of the final
duration; the tolerance warning is raised exactly when
`|actual - target|` exceeds the fixed absolute 1-second bound. -/
theorem c6_duration_tolerance (segs : List Segment) (words : List WordTimestamp)
    (hs : segs ≠ []) (hw : words ≠ []) (actual target : ℚ) :
    (generate_video segs words true true actual target).1 = true ∧
    mainExit (generate_video segs words true true actual target).1 = 0 ∧
    ((generate_video segs words true true actual target).2 = true ↔
      1 < |actual - target|) := by
  obtain ⟨data, hd, -⟩ := generate_full_audio_spec segs words hs hw
  refine ⟨?_, ?_, ?_⟩ <;> simp [generate_video, hd, mainExit]

/-- C6 witness: a 10-second overshoot (70 s actual vs 60 s target)
warns but the run still succeeds with exit status 0. -/
theorem c6_witness :
    (generate_video [⟨1, "hi"⟩] [⟨"hi", 0, 1⟩] true true 70 60).1 = true ∧
    mainExit (generate_video [⟨1, "hi"⟩] [⟨"hi", 0, 1⟩] true true 70 60).1 = 0 ∧
    (generate_video [⟨1, "hi"⟩] [⟨"hi", 0, 1⟩] true true 70 60).2 = true := by
  have h := c6_duration_tolerance [⟨1, "hi"⟩] [⟨"hi", 0, 1⟩] (by decide) (by decide) 70 60
  refine ⟨h.1, h.2.1, h.2.2.mpr ?_⟩
  rw [abs_of_nonneg (by norm_num : (0 : ℚ) ≤ 70 - 60)]
  norm_num

/-! ## Claim C8: SegmentTiming non-negative duration invariant -/

/-- Evaluation helper for `pyRound3` on values whose thousandfold is a
known integer. -/
lemma pyRound3_eval (x : ℚ) (n : ℤ) (h : x * 1000 = (n : ℚ)) :
    pyRound3 x = (n : ℚ) / 1000 := by
  unfold pyRound3
  rw [h, round_intCast]

/-- The segment list of the C8 counterexample: a one-word segment
followed by a segment whose `audio_text` is a lone space (a non-empty
string with zero words). -/
def c8segs : List Segment := [⟨1, "hello"⟩, ⟨2, " "⟩]

/-- A well-formed transcription for the C8 counterexample: per-word
`start ≤ end`, starts in time order. -/
def c8words : List WordTimestamp := [⟨"hello", 0, 1⟩, ⟨"x", 3, 4⟩]

/-- C8 counterexample: the claim as stated is false.  With a
well-formed transcription, a mid-list segment whose text contains no
words gets the word range `[cumulative, cumulative - 1]`: its clamped
end index precedes its start index, and the resulting duration is
negative (second segment: `1 - 3 = -2`). -/
theorem c8_counterexample :
    (generate_full_audio c8segs c8words).map
      (fun d => d.segments.map SegmentTiming.duration) = some [1, -2] ∧
    (∀ w ∈ c8words, w.start ≤ w.stop) ∧
    c8words.Pairwise (fun a c => a.start ≤ c.start) ∧
    ¬ (0 : ℚ) ≤ -2 := by
  refine ⟨?_, by decide, by decide, by norm_num⟩
  have hga : generate_full_audio c8segs c8words =
      some ⟨c8words,
        [⟨1, 0, 1, pyRound3 (1 - 0), 0, 0⟩, ⟨2, 3, 1, pyRound3 (1 - 3), 1, 0⟩]⟩ := rfl
  rw [hga]
  simp only [Option.map_some', List.map_cons, List.map_nil]
  rw [pyRound3_eval (1 - 0) 1000 (by norm_num), pyRound3_eval (1 - 3) (-2000) (by norm_num)]
  norm_num

/-- C8 (amended): provided every segment's text contains at least one
word — in addition to the transcription-order assumptions the data
model grants (`start ≤ end` per word, starts monotone) — every
produced SegmentTiming has `duration ≥ 0`, and on exact 3-decimal
timestamps (as the transcription collection step produces)
`duration = end_seconds - start_seconds` exactly. -/
theorem c8_duration_invariant (segs : List Segment) (words : List WordTimestamp)
    (hs : segs ≠ []) (hw : words ≠ [])
    (hwords : ∀ s ∈ segs, pySplit s.audio_text ≠ [])
    (hss : ∀ w ∈ words, w.start ≤ w.stop)
    (hmono : words.Pairwise fun a c => a.start ≤ c.start) :
    ∃ data, generate_full_audio segs words = some data ∧
      ∀ t ∈ data.segments,
        0 ≤ t.duration ∧
        ((∀ w ∈ words, milli w.start ∧ milli w.stop) →
          t.duration = t.end_time - t.start_time) := by
  obtain ⟨data, hd, -, -, hfa⟩ := generate_full_audio_spec segs words hs hw
  refine ⟨data, hd, ?_⟩
  intro t ht
  obtain ⟨b, hb, hbt⟩ := forall₂_mem_right hfa t ht
  have hge := boundariesAux_ge 0 segs b hb
  have hsle := boundariesAux_start_le_end 0 segs hwords b hb
  obtain ⟨⟨ws, hwsm, hts⟩, ⟨we, hwem, hte⟩, hle, hdur⟩ :=
    mapBoundary_nonneg words b hw (by omega) hsle hss hmono t hbt
  constructor
  · rw [hdur]
    exact pyRound3_nonneg _ (by linarith)
  · intro hmil
    rw [hdur, hte, hts]
    exact pyRound3_of_milli _ _ (hmil we hwem).2 (hmil ws hwsm).1

/-- C8 witness: a two-word segment against a clean two-word
transcription, instantiating the amended theorem. -/
theorem c8_witness :
    ∃ data, generate_full_audio [⟨1, "hello world"⟩]
        [⟨"hello", 0, 1⟩, ⟨"world", 2, 3⟩] = some data ∧
      ∀ t ∈ data.segments,
        0 ≤ t.duration ∧
        ((∀ w ∈ ([⟨"hello", 0, 1⟩, ⟨"world", 2, 3⟩] : List WordTimestamp),
            milli w.start ∧ milli w.stop) →
          t.duration = t.end_time - t.start_time) :=
  c8_duration_invariant [⟨1, "hello world"⟩] [⟨"hello", 0, 1⟩, ⟨"world", 2, 3⟩]
    (by decide) (by decide) (by decide) (by decide) (by decide)

/-! ## Helper lemmas: clip expansion and cut planning -/

lemma expandAux_succ (bc : List Clip) (n f : ℕ) (e : List Clip) (idx : ℕ) :
    expandAux bc n (f + 1) e idx =
      if e.length < n then
        expandAux bc n f (e ++ [expandVariation bc e.length idx]) (idx + 1)
      else e := rfl

lemma expandAux_append (bc : List Clip) (n : ℕ) :
    ∀ (fuel : ℕ) (e : List Clip) (idx : ℕ),
      ∃ tail, expandAux bc n fuel e idx = e ++ tail := by
  intro fuel
  induction fuel with
  | zero => intro e idx; exact ⟨[], by simp [expandAux]⟩
  | succ f ih =>
    intro e idx
    by_cases h : e.length < n
    · obtain ⟨tail, ht⟩ := ih (e ++ [expandVariation bc e.length idx]) (idx + 1)
      refine ⟨[expandVariation bc e.length idx] ++ tail, ?_⟩
      rw [expandAux_succ, if_pos h, ht, List.append_assoc]
    · exact ⟨[], by rw [expandAux_succ, if_neg h, List.append_nil]⟩

lemma expandAux_length (bc : List Clip) (n : ℕ) :
    ∀ (fuel : ℕ) (e : List Clip) (idx : ℕ), n ≤ e.length + fuel →
      (expandAux bc n fuel e idx).length = max e.length n := by
  intro fuel
  induction fuel with
  | zero =>
    intro e idx h
    show e.length = max e.length n
    omega
  | succ f ih =>
    intro e idx h
    rw [expandAux_succ]
    by_cases hlt : e.length < n
    · rw [if_pos hlt, ih _ (idx + 1) (by simp; omega)]
      simp
      omega
    · rw [if_neg hlt]
      omega

lemma expandSearchQueries_length (bc : List Clip) (n : ℕ) :
    (expandSearchQueries bc n).length = n := by
  unfold expandSearchQueries
  rw [List.length_take, expandAux_length bc n n bc 0 (by omega)]
  omega

lemma expandSearchQueries_of_le (bc : List Clip) (n : ℕ) (h : bc.length ≤ n) :
    (expandSearchQueries bc n).take bc.length = bc := by
  unfold expandSearchQueries
  obtain ⟨tail, ht⟩ := expandAux_append bc n n bc 0
  rw [ht, List.take_take, min_eq_left h, List.take_left]

lemma fetchPlan_eq (bc : List Clip) (d f : ℚ) (hbc : bc ≠ []) (hf : f ≠ 0) :
    fetchPlan bc d f = some
      ((if bc.length < (num_clips_needed d f).toNat then
          expandSearchQueries bc (num_clips_needed d f).toNat
        else bc).take (num_clips_needed d f).toNat,
       d / (((num_clips_needed d f).toNat : ℕ) : ℚ)) := by
  simp [fetchPlan, List.isEmpty_iff, hbc, hf]

/-! ## Claim C3: cut planner clip-count formula -/

/-- C3: for a non-empty authored clip list, a segment duration `d ≥ 0`
and a cut frequency `f > 0`, `fetch_for_segment` plans exactly
`max(1, ceil(d / f))` clips, each with display duration `d` divided by
that count (equal subdivision). -/
theorem c3_clip_count (bc : List Clip) (d f : ℚ) (hbc : bc ≠ [])
    (hd : 0 ≤ d) (hf : 0 < f) :
    ∃ plans dur, fetchPlan bc d f = some (plans, dur) ∧
      plans.length = (max 1 ⌈d / f⌉).toNat ∧
      dur = d / (((max 1 ⌈d / f⌉).toNat : ℕ) : ℚ) := by
  have hdef : max 1 ⌈d / f⌉ = num_clips_needed d f := rfl
  rw [hdef]
  refine ⟨_, _, fetchPlan_eq bc d f hbc (ne_of_gt hf), ?_, rfl⟩
  by_cases h : bc.length < (num_clips_needed d f).toNat
  · rw [if_pos h, List.length_take, expandSearchQueries_length]
    omega
  · rw [if_neg h, List.length_take]
    omega

/-- C3 witness: `d = 7, f = 2.5` gives 3 clips of `7/3` s; `d = 1`
gives 1 clip of 1 s; `d = 0` gives exactly one clip of duration 0. -/
theorem c3_witness :
    (∃ plans dur, fetchPlan [⟨"video", "mountain"⟩] 7 (5/2) = some (plans, dur) ∧
      plans.length = 3 ∧ dur = 7/3) ∧
    (∃ plans dur, fetchPlan [⟨"video", "mountain"⟩] 1 (5/2) = some (plans, dur) ∧
      plans.length = 1 ∧ dur = 1) ∧
    (∃ plans dur, fetchPlan [⟨"video", "mountain"⟩] 0 (5/2) = some (plans, dur) ∧
      plans.length = 1 ∧ dur = 0) := by
  refine ⟨?_, ?_, ?_⟩
  · obtain ⟨p, dd, h1, h2, h3⟩ :=
      c3_clip_count [⟨"video", "mountain"⟩] 7 (5/2) (by decide) (by norm_num) (by norm_num)
    have hc : (⌈(7 : ℚ) / (5/2)⌉ : ℤ) = 3 := by norm_num [Int.ceil_eq_iff]
    have ht : ((1 : ℤ) ⊔ 3).toNat = 3 := by decide
    rw [hc, ht] at h2 h3
    exact ⟨p, dd, h1, h2, by rw [h3]; norm_num⟩
  · obtain ⟨p, dd, h1, h2, h3⟩ :=
      c3_clip_count [⟨"video", "mountain"⟩] 1 (5/2) (by decide) (by norm_num) (by norm_num)
    have hc : (⌈(1 : ℚ) / (5/2)⌉ : ℤ) = 1 := by norm_num [Int.ceil_eq_iff]
    have ht : ((1 : ℤ) ⊔ 1).toNat = 1 := by decide
    rw [hc, ht] at h2 h3
    exact ⟨p, dd, h1, h2, by rw [h3]; norm_num⟩
  · obtain ⟨p, dd, h1, h2, h3⟩ :=
      c3_clip_count [⟨"video", "mountain"⟩] 0 (5/2) (by decide) (by norm_num) (by norm_num)
    have hc : (⌈(0 : ℚ) / (5/2)⌉ : ℤ) = 0 := by norm_num
    have ht : ((1 : ℤ) ⊔ 0).toNat = 1 := by decide
    rw [hc, ht] at h2 h3
    exact ⟨p, dd, h1, h2, by rw [h3]; norm_num⟩

/-! ## Claim C7: clip-source expansion -/

/-- C7: for a non-empty authored clip list and a target count exceeding
its length, `_expand_search_queries` returns exactly `num_needed` clip
specs and keeps the authored list as an unmodified prefix.  The
function is deterministic by construction: it is a pure function of
the authored list and the target count (the suffix rotation is
index-based, not random), so two calls with the same arguments are
definitionally equal. -/
theorem c7_expansion (bc : List Clip) (n : ℕ) (hbc : bc ≠ []) (hn : bc.length < n) :
    (expandSearchQueries bc n).length = n ∧
    (expandSearchQueries bc n).take bc.length = bc :=
  ⟨expandSearchQueries_length bc n, expandSearchQueries_of_le bc n (le_of_lt hn)⟩

/-- C7 witness: one authored clip expanded to 4 plans yields four
pairwise-distinct queries, each derived from the base query
"mountain". -/
theorem c7_witness :
    (expandSearchQueries [⟨"video", "mountain"⟩] 4).length = 4 ∧
    (expandSearchQueries [⟨"video", "mountain"⟩] 4).take 1 = [⟨"video", "mountain"⟩] ∧
    (expandSearchQueries [⟨"video", "mountain"⟩] 4).map Clip.search_query =
      ["mountain", "mountain cinematic", "mountain aerial", "mountain close up"] ∧
    ((expandSearchQueries [⟨"video", "mountain"⟩] 4).map Clip.search_query).Pairwise
      (fun a b => a ≠ b) := by
  have h := c7_expansion [⟨"video", "mountain"⟩] 4 (by decide) (by decide)
  exact ⟨h.1, h.2, by decide, by decide⟩

/-! ## Claim C9: non-positive cut frequency -/

/-- C9 counterexample: the claim as stated is false.  At the negative
cut frequency `-2.5` (which is `≤ 0`), `fetch_for_segment` does not
report failure: `ceil(7 / -2.5) = -2`, so `num_clips = max(1, -2) = 1`
and the fetcher proceeds, planning one clip spanning the whole 7-second
segment. -/
theorem c9_counterexample :
    fetchPlan [⟨"video", "mountain sunset"⟩] 7 (-(5/2)) =
      some ([⟨"video", "mountain sunset"⟩], 7) ∧
    fetchPlan [⟨"video", "mountain sunset"⟩] 7 (-(5/2)) ≠ none ∧
    (-(5/2) : ℚ) ≤ 0 := by
  have hc : (⌈(7 : ℚ) / (-(5/2))⌉ : ℤ) = -2 := by norm_num [Int.ceil_eq_iff]
  have hn : num_clips_needed 7 (-(5/2)) = 1 := by
    unfold num_clips_needed
    rw [hc]
    decide
  have h := fetchPlan_eq [⟨"video", "mountain sunset"⟩] 7 (-(5/2)) (by decide) (by norm_num)
  rw [hn] at h
  have h2 : fetchPlan [⟨"video", "mountain sunset"⟩] 7 (-(5/2)) =
      some ([⟨"video", "mountain sunset"⟩], 7) := by
    rw [h]
    norm_num
  exact ⟨h2, by rw [h2]; exact Option.some_ne_none _, by norm_num⟩

/-- C9 (amended): only `cut_frequency = 0` is rejected — the division
at line 417 raises `ZeroDivisionError`, the surrounding `try` catches
it and `fetch_for_segment` returns failure.  A negative cut frequency
is not rejected: `ceil(d / f) ≤ 0`, so `num_clips = 1` and the fetcher
proceeds with a single clip covering the whole segment duration. -/
theorem c9_zero_frequency (bc : List Clip) (d : ℚ) (hbc : bc ≠ []) (hd : 0 ≤ d) :
    fetchPlan bc d 0 = none ∧
    ∀ f : ℚ, f < 0 → fetchPlan bc d f = some (bc.take 1, d) := by
  constructor
  · simp [fetchPlan, List.isEmpty_iff, hbc]
  · intro f hf
    have hf' : f ≠ 0 := ne_of_lt hf
    have hdf : d / f ≤ 0 := div_nonpos_iff.mpr (Or.inl ⟨hd, le_of_lt hf⟩)
    have hceil : ⌈d / f⌉ ≤ 0 := by
      rw [Int.ceil_le]
      simpa using hdf
    have hn : num_clips_needed d f = 1 := by
      unfold num_clips_needed
      omega
    have h := fetchPlan_eq bc d f hbc hf'
    rw [hn] at h
    rw [h]
    have hlen : ¬ bc.length < (1 : ℤ).toNat := by
      have := List.length_pos.mpr hbc
      omega
    rw [if_neg hlen]
    norm_num

/-- C9 witness. -/
theorem c9_witness :
    fetchPlan [⟨"video", "city"⟩] 7 0 = none ∧
    fetchPlan [⟨"video", "city"⟩] 7 (-1) = some ([⟨"video", "city"⟩], 7) := by
  have h := c9_zero_frequency [⟨"video", "city"⟩] 7 (by decide) (by norm_num)
  refine ⟨h.1, ?_⟩
  have h2 := h.2 (-1) (by norm_num)
  simpa using h2

/-! ## Claim C10: authored clips beyond the planned count are dropped -/

/-- C10: the fetcher processes exactly the first `num_clips_needed`
entries of the (possibly expanded) clip list, in authored order: when
`num_clips_needed ≤ len(authored)` the processed list is the authored
prefix of that length (trailing authored clips are never searched,
downloaded or rendered); when expansion occurs, the first
`len(authored)` plans keep the authored clips unmodified. -/
theorem c10_authored_prefix (bc : List Clip) (d f : ℚ) (hbc : bc ≠ []) (hf : 0 < f) :
    ∃ plans dur, fetchPlan bc d f = some (plans, dur) ∧
      plans.length = (num_clips_needed d f).toNat ∧
      ((num_clips_needed d f).toNat ≤ bc.length →
        plans = bc.take (num_clips_needed d f).toNat) ∧
      (bc.length < (num_clips_needed d f).toNat →
        plans.take bc.length = bc) := by
  refine ⟨_, _, fetchPlan_eq bc d f hbc (ne_of_gt hf), ?_, ?_, ?_⟩
  · by_cases h : bc.length < (num_clips_needed d f).toNat
    · rw [if_pos h, List.length_take, expandSearchQueries_length]
      omega
    · rw [if_neg h, List.length_take]
      omega
  · intro h
    rw [if_neg (by omega)]
  · intro h
    rw [if_pos h, List.take_take, min_eq_left (le_of_lt h)]
    exact expandSearchQueries_of_le bc _ (le_of_lt h)

/-- C10 witness: three authored clips with only one clip needed →
only the first is processed; one authored clip with four needed →
four plans whose first entry is the authored clip unmodified. -/
theorem c10_witness :
    (∃ plans dur, fetchPlan [⟨"video", "a"⟩, ⟨"video", "b"⟩, ⟨"video", "c"⟩] 2 (5/2) =
        some (plans, dur) ∧ plans = [⟨"video", "a"⟩]) ∧
    (∃ plans dur, fetchPlan [⟨"video", "a"⟩] 10 (5/2) = some (plans, dur) ∧
      plans.length = 4 ∧ plans.take 1 = [⟨"video", "a"⟩]) := by
  constructor
  · obtain ⟨p, dd, h1, h2, h3, h4⟩ :=
      c10_authored_prefix [⟨"video", "a"⟩, ⟨"video", "b"⟩, ⟨"video", "c"⟩] 2 (5/2)
        (by decide) (by norm_num)
    have hn : (num_clips_needed 2 (5/2)).toNat = 1 := by
      unfold num_clips_needed
      rw [show ⌈(2 : ℚ) / (5/2)⌉ = 1 from by norm_num [Int.ceil_eq_iff]]
      decide
    rw [hn] at h3
    exact ⟨p, dd, h1, by rw [h3 (by decide)]; rfl⟩
  · obtain ⟨p, dd, h1, h2, h3, h4⟩ :=
      c10_authored_prefix [⟨"video", "a"⟩] 10 (5/2) (by decide) (by norm_num)
    have hn : (num_clips_needed 10 (5/2)).toNat = 4 := by
      unfold num_clips_needed
      rw [show ⌈(10 : ℚ) / (5/2)⌉ = 4 from by norm_num [Int.ceil_eq_iff]]
      decide
    rw [hn] at h2 h4
    exact ⟨p, dd, h1, h2, h4 (by norm_num)⟩

/-! ## Claim C1: Stage B audio/video reconciliation -/

/-- C1: `combine_audio_video` on the probed durations: footage more
than 0.1 s shorter than the voice is looped from its start and
hard-cut at the voice duration; footage more than 0.1 s longer is
trimmed to the voice duration (resetting its time base); within
tolerance the footage is used unmodified.  In the first two cases the
resulting video duration equals the voice-track duration. -/
theorem c1_stage_b_reconciliation (vd ad : ℚ) :
    (vd < ad - 1/10 →
      combine_audio_video vd ad = (ReconcileAction.loopAndCut, ad)) ∧
    (ad + 1/10 < vd →
      combine_audio_video vd ad = (ReconcileAction.trim, ad)) ∧
    (|vd - ad| ≤ 1/10 →
      combine_audio_video vd ad = (ReconcileAction.unmodified, vd)) := by
  unfold combine_audio_video streamLoopCutDuration ffmpegTrimDuration
  refine ⟨?_, ?_, ?_⟩
  · intro h
    rw [if_pos h]
  · intro h
    rw [if_neg (by linarith), if_pos (by linarith), min_eq_right (by linarith)]
  · intro h
    rw [abs_le] at h
    rw [if_neg (by linarith), if_neg (by linarith)]

/-- C1 witness: footage 8 s vs voice 10 s loops and yields 10 s;
footage 12 s vs voice 10 s trims and yields 10 s. -/
theorem c1_witness :
    combine_audio_video 8 10 = (ReconcileAction.loopAndCut, 10) ∧
    combine_audio_video 12 10 = (ReconcileAction.trim, 10) :=
  ⟨(c1_stage_b_reconciliation 8 10).1 (by norm_num),
   (c1_stage_b_reconciliation 12 10).2.1 (by norm_num)⟩

/-! ## Helper lemmas: music mixing -/

lemma range_map_getD (n : ℕ) (f : ℕ → ℚ) (i : ℕ) (hi : i < n) :
    ((List.range n).map f).getD i 0 = f i := by
  rw [List.getD_eq_getElem?_getD, List.getElem?_map, List.getElem?_range hi]
  rfl

lemma gainAdjust_length (g : ℚ) (seg : List ℚ) :
    (gainAdjust g seg).length = seg.length := by
  simp [gainAdjust]

lemma gainAdjust_getD (g : ℚ) (seg : List ℚ) (j : ℕ) (hj : j < seg.length) :
    (gainAdjust g seg).getD j 0 = g * seg.getD j 0 := by
  unfold gainAdjust
  rw [List.getD_eq_getElem?_getD, List.getElem?_map,
    List.getElem?_eq_getElem hj, List.getD_eq_getElem?_getD,
    List.getElem?_eq_getElem hj]
  rfl

lemma overlay_length (a b : List ℚ) : (overlay a b).length = a.length := by
  simp [overlay]

lemma overlay_getD (a b : List ℚ) (i : ℕ) (hi : i < a.length) :
    (overlay a b).getD i 0 = a.getD i 0 + b.getD i 0 := by
  unfold overlay
  exact range_map_getD _ _ i hi

lemma fadeIn_length (m : ℕ) (env : ℕ → ℚ) (seg : List ℚ) :
    (fadeIn m env seg).length = seg.length := by
  simp [fadeIn]

lemma fadeOut_length (m : ℕ) (env : ℕ → ℚ) (seg : List ℚ) :
    (fadeOut m env seg).length = seg.length := by
  simp [fadeOut]

lemma fadeIn_getD_of_ge (m : ℕ) (env : ℕ → ℚ) (seg : List ℚ) (i : ℕ)
    (hi : i < seg.length) (h : m ≤ i) :
    (fadeIn m env seg).getD i 0 = seg.getD i 0 := by
  unfold fadeIn
  rw [range_map_getD _ _ i hi, if_neg (by omega)]

lemma fadeIn_getD_of_lt (m : ℕ) (env : ℕ → ℚ) (seg : List ℚ) (i : ℕ)
    (hi : i < seg.length) (h : i < m) :
    (fadeIn m env seg).getD i 0 = env i * seg.getD i 0 := by
  unfold fadeIn
  rw [range_map_getD _ _ i hi, if_pos h]

lemma fadeOut_getD_early (m : ℕ) (env : ℕ → ℚ) (seg : List ℚ) (i : ℕ)
    (hi : i + m < seg.length) :
    (fadeOut m env seg).getD i 0 = seg.getD i 0 := by
  unfold fadeOut
  rw [range_map_getD _ _ i (by omega), if_neg (by omega)]

lemma pydubRepeat_length (seg : List ℚ) (n : ℕ) :
    (pydubRepeat seg n).length = n * seg.length := by
  induction n with
  | zero => simp [pydubRepeat]
  | succ k ih =>
    show ((List.replicate (k + 1) seg).flatten).length = (k + 1) * seg.length
    rw [List.replicate_succ, List.flatten_cons, List.length_append,
      show (List.replicate k seg).flatten = pydubRepeat seg k from rfl, ih]
    ring

lemma pydubRepeat_getD (seg : List ℚ) (n i : ℕ) (hi : i < n * seg.length) :
    (pydubRepeat seg n).getD i 0 = seg.getD (i % seg.length) 0 := by
  induction n generalizing i with
  | zero => exact absurd hi (by omega)
  | succ k ih =>
    show ((List.replicate (k + 1) seg).flatten).getD i 0 = _
    rw [List.replicate_succ, List.flatten_cons]
    by_cases h : i < seg.length
    · rw [List.getD_append _ _ _ _ h, Nat.mod_eq_of_lt h]
    · push_neg at h
      have hi' : i - seg.length < k * seg.length := by
        rw [Nat.succ_mul] at hi
        omega
      rw [List.getD_append_right _ _ _ _ h,
        show (List.replicate k seg).flatten = pydubRepeat seg k from rfl, ih _ hi']
      congr 1
      conv_rhs => rw [← Nat.sub_add_cancel h]
      rw [Nat.add_mod_right]

lemma loops_covers (v m : ℕ) (hm : 0 < m) : v < m * loops_needed v m := by
  unfold loops_needed
  have h1 := Nat.div_add_mod v m
  have h2 : v % m < m := Nat.mod_lt _ hm
  calc v = m * (v / m) + v % m := (Nat.div_add_mod v m).symm
    _ < m * (v / m) + m := by omega
    _ = m * (v / m + 1) := by ring

lemma take_getD (l : List ℚ) (n i : ℕ) (hi : i < n) :
    (l.take n).getD i 0 = l.getD i 0 := by
  rw [List.getD_eq_getElem?_getD, List.getD_eq_getElem?_getD, List.getElem?_take, if_pos hi]

/-! ## Claim C4: music mixing -/

/-- C4: when the selected music track is shorter than the voice track,
`mix_background_music` repeats that same track `loops_needed` times —
enough to cover the voice duration — truncates it to exactly the voice
duration, applies the fade-in envelope only over the first `fade_ms`
positions and the fade-out envelope only over the last `fade_ms`
positions, and additively overlays it onto the voice track: the mixed
output has exactly the voice track's length, and every sample outside
the two fade windows — loop boundaries included — is exactly
`voice + gain · music[i mod len(music)]` with no fade attenuation. -/
theorem c4_music_mixing (gain : ℚ) (fade_ms : ℕ) (envIn envOut : ℕ → ℚ)
    (voiceover music : List ℚ) (hm : music ≠ [])
    (hlt : music.length < voiceover.length) :
    ∃ mixed,
      mix_background_music gain fade_ms envIn envOut voiceover music = some mixed ∧
      mixed.length = voiceover.length ∧
      voiceover.length < music.length * loops_needed voiceover.length music.length ∧
      (∀ i, fade_ms ≤ i → i + fade_ms < voiceover.length →
        mixed.getD i 0 = voiceover.getD i 0 + gain * music.getD (i % music.length) 0) ∧
      (∀ i, i < fade_ms → i + fade_ms < voiceover.length →
        mixed.getD i 0 =
          voiceover.getD i 0 + envIn i * (gain * music.getD (i % music.length) 0)) := by
  have hm0 : 0 < music.length := List.length_pos.mpr hm
  have hlen : (gainAdjust gain music).length = music.length := gainAdjust_length gain music
  have hcov := loops_covers voiceover.length music.length hm0
  set L := loops_needed voiceover.length music.length with hL
  have hcov' : voiceover.length < L * music.length := by
    rw [Nat.mul_comm]
    exact hcov
  set bed := (pydubRepeat (gainAdjust gain music) L).take voiceover.length with hbed
  have hbedlen : bed.length = voiceover.length := by
    rw [hbed, List.length_take, pydubRepeat_length, hlen]
    exact min_eq_left (le_of_lt hcov')
  have hbed_mid : ∀ i, i < voiceover.length →
      bed.getD i 0 = gain * music.getD (i % music.length) 0 := by
    intro i hi
    have hiL : i < L * (gainAdjust gain music).length := by
      rw [hlen]
      exact lt_trans hi hcov'
    rw [hbed, take_getD _ _ _ hi, pydubRepeat_getD _ _ _ hiL, hlen]
    exact gainAdjust_getD _ _ _ (Nat.mod_lt _ hm0)
  set bed' := if 0 < fade_ms then fadeOut fade_ms envOut (fadeIn fade_ms envIn bed)
    else bed with hbed'
  have hmix : mix_background_music gain fade_ms envIn envOut voiceover music =
      some (overlay voiceover bed') := by
    simp only [mix_background_music]
    rw [hlen, if_neg (by omega), if_pos hlt, ← hL, ← hbed, ← hbed']
  refine ⟨overlay voiceover bed', hmix, overlay_length _ _, hcov, ?_, ?_⟩
  · intro i h1 h2
    have hiv : i < voiceover.length := by omega
    rw [overlay_getD _ _ _ hiv]
    congr 1
    rw [hbed']
    by_cases hf : 0 < fade_ms
    · rw [if_pos hf]
      rw [fadeOut_getD_early _ _ _ _ (by rw [fadeIn_length, hbedlen]; omega)]
      rw [fadeIn_getD_of_ge _ _ _ _ (by rw [hbedlen]; omega) h1]
      exact hbed_mid i hiv
    · rw [if_neg hf]
      exact hbed_mid i hiv
  · intro i h1 h2
    have hf : 0 < fade_ms := by omega
    have hiv : i < voiceover.length := by omega
    rw [overlay_getD _ _ _ hiv]
    congr 1
    rw [hbed', if_pos hf]
    rw [fadeOut_getD_early _ _ _ _ (by rw [fadeIn_length, hbedlen]; omega)]
    rw [fadeIn_getD_of_lt _ _ _ _ (by rw [hbedlen]; omega) h1]
    rw [hbed_mid i hiv]

/-- C4 witness: a 5-unit track against a 17-unit voice track is
repeated `17 // 5 + 1 = 4 = ceil(17/5)` times and the mixed output has
exactly the voice track's length. -/
theorem c4_witness :
    loops_needed 17 5 = 4 ∧ ⌈(17 : ℚ) / 5⌉ = (4 : ℤ) ∧
    ∃ mixed, mix_background_music 1 2 (fun i => (i : ℚ) / 2000) (fun i => (i : ℚ) / 2000)
        (List.replicate 17 1) [2, 3, 4, 5, 6] = some mixed ∧
      mixed.length = 17 := by
  refine ⟨by decide, by norm_num [Int.ceil_eq_iff], ?_⟩
  obtain ⟨mixed, hmix, hlen, -, -, -⟩ :=
    c4_music_mixing 1 2 (fun i => (i : ℚ) / 2000) (fun i => (i : ℚ) / 2000)
      (List.replicate 17 1) [2, 3, 4, 5, 6] (by decide) (by decide)
  exact ⟨mixed, hmix, by rw [hlen]; decide⟩
